import Mathlib

/-!
Shallow embedding of the hft-trading-system order-book core.

Sources embedded here:
* src/unnamed/part_004 (types.hpp): Price, Quantity, Side, PriceLevel,
  SymbolConfig.StringToFixed, SymbolConfig.FixedToString.
* src/src/order_book/order_book.hpp (+ inline .cpp): OrderBook state and
  its operations Update, UpdateFromStrings, Clear, ClearSide, and the
  query surface GetBestBid, GetBestAsk, GetSpread, GetMidPrice,
  GetQuantityAt, GetTopLevels, GetLevelCount.
* src/src/binance_stream_main.cpp: the SetOnDepthUpdate lambda that
  synchronizes the book against the Binance depth stream.

Machine integers (int64_t) are modelled as Int; overflow is immaterial to
the claims below, which quantify over abstract states or concrete small
inputs.  std::unordered_map is modelled as an association list, std::set
as a list sorted by the set's comparator; insert, erase and find are
translated operation by operation.
-/

namespace HFT

/-- Price stored as integer (fixed point), types.hpp. -/
abbrev Price := Int

/-- Quantity stored as integer (fixed point), types.hpp. -/
abbrev Quantity := Int

/-- Side of the book, types.hpp. -/
inductive Side : Type where
  | kBuy : Side
  | kSell : Side
deriving DecidableEq

/-- Single price level in market depth, types.hpp. -/
structure PriceLevel where
  price : Price
  quantity : Quantity
deriving DecidableEq

namespace SymbolConfig

/-- Numeric value of a decimal digit character (c - '0' in the source). -/
def digitVal (c : Char) : Int := Int.ofNat (c.toNat - 48)

/-- The character-class test used by StringToFixed: c >= '0' && c <= '9'. -/
def isDigitChar (c : Char) : Bool := decide ('0' ≤ c ∧ c ≤ '9')

/--
The character loop of SymbolConfig::StringToFixed (types.hpp).
State: accumulated result, found_dot flag, decimal_count.  Returns the
final (result, decimal_count) pair; the early break of the source (when
decimal_count reaches the requested number of decimals after the dot)
is the non-recursive return in the digit branch.
-/
def stfLoop (decimals : Nat) : List Char → Int → Bool → Nat → Int × Nat
  | [], result, _, dc => (result, dc)
  | c :: cs, result, found_dot, dc =>
    if c = '.' then
      stfLoop decimals cs result true dc
    else if isDigitChar c then
      let r := result * 10 + digitVal c
      if found_dot then
        if dc + 1 ≥ decimals then (r, dc + 1)
        else stfLoop decimals cs r found_dot (dc + 1)
      else stfLoop decimals cs r found_dot dc
    else
      stfLoop decimals cs result found_dot dc

/--
SymbolConfig::StringToFixed (types.hpp): parse a decimal string into a
fixed-point integer with the given number of fractional decimals.  The
final padding while-loop multiplies by 10 once per missing decimal.
-/
def StringToFixed (s : String) (decimals : Nat) : Int :=
  let r := stfLoop decimals s.data 0 false 0
  r.1 * (10 : Int) ^ (decimals - r.2)

/-- Big-endian decimal digit characters of a natural number, the model of
std::to_string on a nonnegative value. -/
def natDigits (n : Nat) : List Char :=
  if h : n < 10 then [Char.ofNat (48 + n)]
  else natDigits (n / 10) ++ [Char.ofNat (48 + n % 10)]
decreasing_by exact Nat.div_lt_self (by omega) (by omega)

/-- Model of std::to_string on int64_t. -/
def intChars (v : Int) : List Char :=
  if v < 0 then '-' :: natDigits v.natAbs else natDigits v.natAbs

/--
SymbolConfig::FixedToString (types.hpp): render a fixed-point integer
with the given number of decimals.  Zero short-circuits to "0." followed
by zeros; otherwise the decimal string is left-padded with '0' while its
length is at most the decimal count, and '.' is inserted before the last
`decimals` characters.
-/
def fixedChars (value : Int) (decimals : Nat) : List Char :=
  if value = 0 then '0' :: '.' :: List.replicate decimals '0'
  else
    let s0 := intChars value
    let s1 := List.replicate (decimals + 1 - s0.length) '0' ++ s0
    s1.take (s1.length - decimals) ++ '.' :: s1.drop (s1.length - decimals)

/-- SymbolConfig::FixedToString as a String-valued function. -/
def FixedToString (value : Int) (decimals : Nat) : String :=
  String.mk (fixedChars value decimals)

end SymbolConfig

/-- Lookup in an association-list model of std::unordered_map::find. -/
def lookup : List (Price × Quantity) → Price → Option Quantity
  | [], _ => none
  | (k, v) :: rest, p => if k = p then some v else lookup rest p

/-- Model of std::unordered_map::insert_or_assign: overwrite the value at
the first occurrence of the key, or append a fresh entry. -/
def insertOrAssign : List (Price × Quantity) → Price → Quantity → List (Price × Quantity)
  | [], p, q => [(p, q)]
  | (k, v) :: rest, p, q =>
    if k = p then (p, q) :: rest else (k, v) :: insertOrAssign rest p q

/-- Model of std::unordered_map::erase on the iterator found for a key:
remove the first entry with that key. -/
def eraseKey : List (Price × Quantity) → Price → List (Price × Quantity)
  | [], _ => []
  | (k, v) :: rest, p => if k = p then rest else (k, v) :: eraseKey rest p

/-- Model of std::set::insert for a set ordered by the comparator ltb:
place the new element before the first element it compares below, and do
nothing when the element is already present. -/
def setInsert (ltb : Price → Price → Bool) (p : Price) : List Price → List Price
  | [] => [p]
  | q :: qs =>
    if ltb p q then p :: q :: qs
    else if p = q then q :: qs
    else q :: setInsert ltb p qs

/-- Comparator of bid_prices_ (std::greater, descending iteration). -/
def bidLtb (a b : Price) : Bool := decide (b < a)

/-- Comparator of ask_prices_ (std::less, ascending iteration). -/
def askLtb (a b : Price) : Bool := decide (a < b)

/--
The OrderBook state (order_book.hpp): per-side lookup map and ordered
price set, the mutable best-price cache with its validity flag, the
update counter and the per-symbol decimal configuration.
-/
structure OrderBook where
  symbol : String
  price_decimals : Nat
  quantity_decimals : Nat
  bids : List (Price × Quantity)
  bid_prices : List Price
  asks : List (Price × Quantity)
  ask_prices : List Price
  cached_best_bid : Option Price
  cached_best_ask : Option Price
  cache_valid : Bool
  update_count : Nat
deriving DecidableEq

namespace OrderBook

/-- The OrderBook constructor: everything empty, cache invalid. -/
def mkBook (symbol : String) (price_decimals quantity_decimals : Nat) : OrderBook where
  symbol := symbol
  price_decimals := price_decimals
  quantity_decimals := quantity_decimals
  bids := []
  bid_prices := []
  asks := []
  ask_prices := []
  cached_best_bid := none
  cached_best_ask := none
  cache_valid := false
  update_count := 0

/-- OrderBook::InvalidateCache. -/
def InvalidateCache (b : OrderBook) : OrderBook := { b with cache_valid := false }

/-- OrderBook::UpdateBid: quantity 0 erases the level when present (map
and price set together); otherwise insert_or_assign, adding the price to
the ordered set only when the map insertion was fresh. -/
def UpdateBid (b : OrderBook) (price : Price) (quantity : Quantity) : OrderBook :=
  if quantity = 0 then
    if (lookup b.bids price).isSome then
      { b with bids := eraseKey b.bids price, bid_prices := b.bid_prices.erase price }
    else b
  else
    if (lookup b.bids price).isSome then
      { b with bids := insertOrAssign b.bids price quantity }
    else
      { b with bids := insertOrAssign b.bids price quantity,
               bid_prices := setInsert bidLtb price b.bid_prices }

/-- OrderBook::UpdateAsk, mirror image of UpdateBid. -/
def UpdateAsk (b : OrderBook) (price : Price) (quantity : Quantity) : OrderBook :=
  if quantity = 0 then
    if (lookup b.asks price).isSome then
      { b with asks := eraseKey b.asks price, ask_prices := b.ask_prices.erase price }
    else b
  else
    if (lookup b.asks price).isSome then
      { b with asks := insertOrAssign b.asks price quantity }
    else
      { b with asks := insertOrAssign b.asks price quantity,
               ask_prices := setInsert askLtb price b.ask_prices }

/-- OrderBook::Update: bump the update counter, invalidate the cache and
dispatch on the side. -/
def Update (b : OrderBook) (side : Side) (price : Price) (quantity : Quantity) : OrderBook :=
  let b1 := InvalidateCache { b with update_count := b.update_count + 1 }
  match side with
  | Side.kBuy => UpdateBid b1 price quantity
  | Side.kSell => UpdateAsk b1 price quantity

/-- OrderBook::UpdateFromStrings: convert through StringToFixed with the
book's per-symbol decimal counts, then Update. -/
def UpdateFromStrings (b : OrderBook) (side : Side) (price_str quantity_str : String) : OrderBook :=
  Update b side (SymbolConfig.StringToFixed price_str b.price_decimals)
    (SymbolConfig.StringToFixed quantity_str b.quantity_decimals)

/-- OrderBook::Clear(): clear both sides and invalidate the cache. -/
def Clear (b : OrderBook) : OrderBook :=
  { b with bids := [], asks := [], bid_prices := [], ask_prices := [], cache_valid := false }

/-- OrderBook::Clear(Side): clear one side only, invalidate the cache. -/
def ClearSide (b : OrderBook) (side : Side) : OrderBook :=
  match side with
  | Side.kBuy => { b with bids := [], bid_prices := [], cache_valid := false }
  | Side.kSell => { b with asks := [], ask_prices := [], cache_valid := false }

/-- OrderBook::RefreshCache: when the cache is invalid, recompute both
cached best prices from the heads of the ordered price sets. -/
def RefreshCache (b : OrderBook) : OrderBook :=
  if b.cache_valid then b
  else
    { b with cached_best_bid := b.bid_prices.head?,
             cached_best_ask := b.ask_prices.head?,
             cache_valid := true }

/-- OrderBook::GetBestBid: value returned after the internal refresh. -/
def GetBestBid (b : OrderBook) : Option Price := (RefreshCache b).cached_best_bid

/-- OrderBook::GetBestAsk: value returned after the internal refresh. -/
def GetBestAsk (b : OrderBook) : Option Price := (RefreshCache b).cached_best_ask

/-- OrderBook::GetSpread = best_ask - best_bid when both exist. -/
def GetSpread (b : OrderBook) : Option Price :=
  match GetBestBid b, GetBestAsk b with
  | some bid, some ask => some (ask - bid)
  | _, _ => none

/-- OrderBook::GetMidPrice = (best_bid + best_ask) / 2 when both exist;
int64_t division truncates toward zero, hence Int.tdiv. -/
def GetMidPrice (b : OrderBook) : Option Price :=
  match GetBestBid b, GetBestAsk b with
  | some bid, some ask => some (Int.tdiv (bid + ask) 2)
  | _, _ => none

/-- OrderBook::GetQuantityAt: hash lookup, 0 when the level is absent. -/
def GetQuantityAt (b : OrderBook) (side : Side) (price : Price) : Quantity :=
  let m := match side with | Side.kBuy => b.bids | Side.kSell => b.asks
  match lookup m price with
  | some q => q
  | none => 0

/-- OrderBook::GetTopLevels: walk the ordered price set, stopping once n
levels are collected, reading each quantity from the lookup map. -/
def GetTopLevels (b : OrderBook) (side : Side) (n : Nat) : List PriceLevel :=
  let prices := match side with | Side.kBuy => b.bid_prices | Side.kSell => b.ask_prices
  let m := match side with | Side.kBuy => b.bids | Side.kSell => b.asks
  (prices.take n).map (fun p => ⟨p, (lookup m p).getD 0⟩)

/-- OrderBook::GetLevelCount: size of the ordered price set. -/
def GetLevelCount (b : OrderBook) (side : Side) : Nat :=
  match side with
  | Side.kBuy => b.bid_prices.length
  | Side.kSell => b.ask_prices.length

end OrderBook

/-- A depth update record as decoded from the WebSocket stream
(binance_messages.hpp, struct DepthUpdate); the symbol string is dropped
as the stream handler never reads it. -/
structure DepthUpdate where
  first_update_id : Int
  final_update_id : Int
  bids : List (String × String)
  asks : List (String × String)
deriving DecidableEq

/-- A depth snapshot record from the REST API (binance_messages.hpp,
struct DepthSnapshot). -/
structure DepthSnapshot where
  last_update_id : Int
  bids : List (String × String)
  asks : List (String × String)
deriving DecidableEq

/-- The synchronization state owned by main in binance_stream_main.cpp:
the synchronized flag, last_update_id, and the order book. -/
structure StreamState where
  synchronized : Bool
  last_update_id : Int
  book : OrderBook
deriving DecidableEq

/-- Apply every (price, quantity) string pair of a depth update to the
book, bids then asks, exactly as the stream handler's two loops do. -/
def applyUpdatePairs (b : OrderBook) (u : DepthUpdate) : OrderBook :=
  let b1 := u.bids.foldl (fun acc pq => acc.UpdateFromStrings Side.kBuy pq.1 pq.2) b
  u.asks.foldl (fun acc pq => acc.UpdateFromStrings Side.kSell pq.1 pq.2) b1

/-- Apply every (price, quantity) string pair of a snapshot to the book,
bids then asks, as the bootstrap branch of the stream handler does. -/
def applySnapshotPairs (b : OrderBook) (snap : DepthSnapshot) : OrderBook :=
  let b1 := snap.bids.foldl (fun acc pq => acc.UpdateFromStrings Side.kBuy pq.1 pq.2) b
  snap.asks.foldl (fun acc pq => acc.UpdateFromStrings Side.kSell pq.1 pq.2) b1

/--
The SetOnDepthUpdate lambda of binance_stream_main.cpp, one invocation.
`fetch` is the result of client->FetchDepthSnapshot in the bootstrap
branch: none models the call throwing (the catch block leaves all state
untouched), some snap models a successful fetch, after which the book is
cleared, the snapshot pairs are applied and synchronized becomes true.
Once synchronized, an update whose final_update_id is at most
last_update_id returns immediately; any other update is applied pair by
pair and last_update_id becomes its final_update_id.  No other check on
the update's bounds is performed by the source.
-/
def onDepthUpdate (st : StreamState) (u : DepthUpdate) (fetch : Option DepthSnapshot) : StreamState :=
  if st.synchronized = false then
    match fetch with
    | none => st
    | some snap =>
      { synchronized := true
        last_update_id := snap.last_update_id
        book := applySnapshotPairs st.book.Clear snap }
  else if u.final_update_id ≤ st.last_update_id then st
  else
    { synchronized := st.synchronized
      last_update_id := u.final_update_id
      book := applyUpdatePairs st.book u }

end HFT

namespace HFT

/-! ### Invariant machinery: the lookup map and the ordered price set -/

/-- Abstract facts about a strict total-order comparator; both side
comparators satisfy them. -/
structure StrictCmp (ltb : Price → Price → Bool) : Prop where
  irrefl : ∀ a, ltb a a = false
  trans : ∀ a b c, ltb a b = true → ltb b c = true → ltb a c = true
  total : ∀ a b, a ≠ b → ltb a b = true ∨ ltb b a = true

theorem bidLtb_strict : StrictCmp bidLtb := by
  constructor
  · intro a
    simp [bidLtb]
  · intro a b c hab hbc
    simp only [bidLtb, decide_eq_true_eq] at *
    exact lt_trans hbc hab
  · intro a b h
    simp only [bidLtb, decide_eq_true_eq]
    exact h.lt_or_lt.symm

theorem askLtb_strict : StrictCmp askLtb := by
  constructor
  · intro a
    simp [askLtb]
  · intro a b c hab hbc
    simp only [askLtb, decide_eq_true_eq] at *
    exact lt_trans hab hbc
  · intro a b h
    simp only [askLtb, decide_eq_true_eq]
    exact h.lt_or_lt

theorem lookup_isSome_iff_mem_keys (m : List (Price × Quantity)) (x : Price) :
    (lookup m x).isSome = true ↔ x ∈ m.map Prod.fst := by
  induction m with
  | nil => simp [lookup]
  | cons kv rest ih =>
    obtain ⟨k, v⟩ := kv
    by_cases hk : k = x
    · subst hk
      simp [lookup]
    · have hxk : ¬ x = k := fun hh => hk hh.symm
      simp [lookup, hk, hxk, ih]

theorem lookup_eq_none_of_not_mem_keys (m : List (Price × Quantity)) (x : Price)
    (h : x ∉ m.map Prod.fst) : lookup m x = none := by
  rcases ho : lookup m x with _ | q
  · rfl
  · exact absurd ((lookup_isSome_iff_mem_keys m x).1 (by simp [ho])) h

theorem lookup_insertOrAssign (m : List (Price × Quantity)) (p : Price) (q : Quantity)
    (x : Price) :
    lookup (insertOrAssign m p q) x = if x = p then some q else lookup m x := by
  induction m with
  | nil =>
    by_cases hx : x = p
    · subst hx
      simp [insertOrAssign, lookup]
    · have hpx : ¬ p = x := fun hh => hx hh.symm
      simp [insertOrAssign, lookup, hx, hpx]
  | cons kv rest ih =>
    obtain ⟨k, v⟩ := kv
    by_cases hk : k = p
    · subst hk
      by_cases hx : x = k <;> simp [insertOrAssign, lookup, hx, eq_comm]
    · by_cases hx : x = p
      · subst hx
        have hkx : ¬ k = x := fun hh => hk hh
        simp [insertOrAssign, lookup, hk, hkx, ih]
      · by_cases hkx : k = x <;> simp [insertOrAssign, lookup, hk, hkx, ih, hx]

theorem keys_insertOrAssign (m : List (Price × Quantity)) (p : Price) (q : Quantity) :
    (insertOrAssign m p q).map Prod.fst =
      if (lookup m p).isSome then m.map Prod.fst else m.map Prod.fst ++ [p] := by
  induction m with
  | nil => simp [insertOrAssign, lookup]
  | cons kv rest ih =>
    obtain ⟨k, v⟩ := kv
    by_cases hk : k = p
    · subst hk
      simp [insertOrAssign, lookup]
    · simp only [insertOrAssign, if_neg hk, List.map_cons, lookup, ih]
      by_cases hs : (lookup rest p).isSome <;> simp [hs, hk]

theorem eraseKey_sublist (m : List (Price × Quantity)) (p : Price) :
    (eraseKey m p).Sublist m := by
  induction m with
  | nil => simp [eraseKey]
  | cons kv rest ih =>
    obtain ⟨k, v⟩ := kv
    by_cases hk : k = p
    · simp only [eraseKey, if_pos hk]
      exact List.sublist_cons_self (k, v) rest
    · simp only [eraseKey, if_neg hk]
      exact ih.cons₂ (k, v)

theorem eraseKey_of_not_mem (m : List (Price × Quantity)) (p : Price)
    (h : p ∉ m.map Prod.fst) : eraseKey m p = m := by
  induction m with
  | nil => rfl
  | cons kv rest ih =>
    obtain ⟨k, v⟩ := kv
    simp only [List.map_cons, List.mem_cons] at h
    push_neg at h
    have hk : ¬ k = p := fun hh => h.1 hh.symm
    simp [eraseKey, hk, ih h.2]

theorem lookup_eraseKey_ne (m : List (Price × Quantity)) (p x : Price) (h : x ≠ p) :
    lookup (eraseKey m p) x = lookup m x := by
  induction m with
  | nil => rfl
  | cons kv rest ih =>
    obtain ⟨k, v⟩ := kv
    by_cases hk : k = p
    · subst hk
      have hkx : ¬ k = x := fun hh => h hh.symm
      simp [eraseKey, lookup, hkx]
    · by_cases hkx : k = x
      · subst hkx
        simp [eraseKey, lookup, hk]
      · simp [eraseKey, lookup, hk, hkx, ih]

theorem lookup_eraseKey_self (m : List (Price × Quantity)) (p : Price)
    (h : (m.map Prod.fst).Nodup) : lookup (eraseKey m p) p = none := by
  induction m with
  | nil => rfl
  | cons kv rest ih =>
    obtain ⟨k, v⟩ := kv
    simp only [List.map_cons, List.nodup_cons] at h
    by_cases hk : k = p
    · subst hk
      simp only [eraseKey, if_pos rfl]
      exact lookup_eq_none_of_not_mem_keys rest k h.1
    · simp [eraseKey, lookup, hk, ih h.2]

theorem mem_setInsert (ltb : Price → Price → Bool) (p x : Price) (s : List Price) :
    x ∈ setInsert ltb p s ↔ x = p ∨ x ∈ s := by
  induction s with
  | nil => simp [setInsert]
  | cons q qs ih =>
    by_cases h1 : ltb p q
    · simp [setInsert, h1, or_comm, or_left_comm]
    · by_cases h2 : p = q
      · subst h2
        simp [setInsert, h1]
      · simp only [setInsert, if_neg h1, if_neg h2, List.mem_cons, ih]
        tauto

theorem pairwise_setInsert (ltb : Price → Price → Bool) (hc : StrictCmp ltb)
    (p : Price) (s : List Price)
    (hs : s.Pairwise (fun a b => ltb a b = true)) :
    (setInsert ltb p s).Pairwise (fun a b => ltb a b = true) := by
  induction s with
  | nil => simp [setInsert]
  | cons q qs ih =>
    rw [List.pairwise_cons] at hs
    obtain ⟨hq, hqs⟩ := hs
    by_cases h1 : ltb p q
    · simp only [setInsert, if_pos h1]
      refine List.Pairwise.cons ?_ (List.pairwise_cons.2 ⟨hq, hqs⟩)
      intro x hx
      rcases List.mem_cons.1 hx with rfl | hx
      · exact h1
      · exact hc.trans p q x h1 (hq x hx)
    · by_cases h2 : p = q
      · simp only [setInsert, if_neg h1, if_pos h2]
        exact List.pairwise_cons.2 ⟨hq, hqs⟩
      · simp only [setInsert, if_neg h1, if_neg h2]
        refine List.Pairwise.cons ?_ (ih hqs)
        intro x hx
        rcases (mem_setInsert ltb p x qs).1 hx with hxp | hx
        · rw [hxp]
          rcases hc.total p q h2 with hcon | hgood
          · exact absurd hcon h1
          · exact hgood
        · exact hq x hx

end HFT

namespace HFT

/-- The per-side invariant of order_book.hpp: the ordered price set is
strictly sorted by the side's comparator, a price has an entry in the
lookup map exactly when it is in the ordered set, the map keys are
distinct, and no stored quantity is zero. -/
structure SideInv (ltb : Price → Price → Bool) (m : List (Price × Quantity))
    (s : List Price) : Prop where
  sorted : s.Pairwise (fun a b => ltb a b = true)
  mem_iff : ∀ p, (lookup m p).isSome = true ↔ p ∈ s
  nodup_keys : (m.map Prod.fst).Nodup
  nonzero : ∀ p q, lookup m p = some q → q ≠ 0

theorem SideInv.nodup_set {ltb : Price → Price → Bool} {m : List (Price × Quantity)}
    {s : List Price} (hc : StrictCmp ltb) (h : SideInv ltb m s) : s.Nodup := by
  refine h.sorted.imp ?_
  intro a b hab
  intro hEq
  rw [hEq] at hab
  simp [hc.irrefl b] at hab

theorem sideInv_nil (ltb : Price → Price → Bool) : SideInv ltb [] [] := by
  refine ⟨List.Pairwise.nil, ?_, List.nodup_nil, ?_⟩
  · intro p
    simp [lookup]
  · intro p q h
    simp [lookup] at h

theorem sideInv_erase (ltb : Price → Price → Bool) (hc : StrictCmp ltb)
    (m : List (Price × Quantity)) (s : List Price) (h : SideInv ltb m s) (p : Price) :
    SideInv ltb (eraseKey m p) (s.erase p) := by
  have hnodup_s : s.Nodup := h.nodup_set hc
  refine ⟨?_, ?_, ?_, ?_⟩
  · exact List.Pairwise.sublist (List.erase_sublist p s) h.sorted
  · intro x
    by_cases hx : x = p
    · subst hx
      rw [lookup_eraseKey_self m x h.nodup_keys]
      simp [hnodup_s.mem_erase_iff]
    · rw [lookup_eraseKey_ne m p x hx, h.mem_iff x, hnodup_s.mem_erase_iff]
      simp [hx]
  · exact h.nodup_keys.sublist ((eraseKey_sublist m p).map Prod.fst)
  · intro x q hq
    by_cases hx : x = p
    · subst hx
      rw [lookup_eraseKey_self m x h.nodup_keys] at hq
      exact absurd hq (by simp)
    · exact h.nonzero x q (by rwa [lookup_eraseKey_ne m p x hx] at hq)

theorem sideInv_assign (ltb : Price → Price → Bool) (hc : StrictCmp ltb)
    (m : List (Price × Quantity)) (s : List Price) (h : SideInv ltb m s)
    (p : Price) (q : Quantity) (hq : q ≠ 0) :
    SideInv ltb (insertOrAssign m p q)
      (if (lookup m p).isSome then s else setInsert ltb p s) := by
  by_cases hp : (lookup m p).isSome
  · have hps : p ∈ s := (h.mem_iff p).1 hp
    rw [if_pos hp]
    refine ⟨h.sorted, ?_, ?_, ?_⟩
    · intro x
      rw [lookup_insertOrAssign m p q x]
      by_cases hx : x = p
      · subst hx
        simp [hps]
      · simp only [if_neg hx]
        exact h.mem_iff x
    · rw [keys_insertOrAssign m p q, if_pos hp]
      exact h.nodup_keys
    · intro x qx hqx
      rw [lookup_insertOrAssign m p q x] at hqx
      by_cases hx : x = p
      · rw [if_pos hx] at hqx
        cases hqx
        exact hq
      · exact h.nonzero x qx (by rwa [if_neg hx] at hqx)
  · have hps : p ∉ s := fun hmem => hp ((h.mem_iff p).2 hmem)
    rw [if_neg hp]
    refine ⟨pairwise_setInsert ltb hc p s h.sorted, ?_, ?_, ?_⟩
    · intro x
      rw [lookup_insertOrAssign m p q x, mem_setInsert ltb p x s]
      by_cases hx : x = p
      · simp [hx]
      · simp only [if_neg hx, hx, false_or]
        exact h.mem_iff x
    · rw [keys_insertOrAssign m p q, if_neg hp]
      refine List.Nodup.append h.nodup_keys (List.nodup_singleton p) ?_
      intro x hx hxp
      rw [List.mem_singleton] at hxp
      subst hxp
      exact hp ((lookup_isSome_iff_mem_keys m x).2 hx)
    · intro x qx hqx
      rw [lookup_insertOrAssign m p q x] at hqx
      by_cases hx : x = p
      · rw [if_pos hx] at hqx
        cases hqx
        exact hq
      · exact h.nonzero x qx (by rwa [if_neg hx] at hqx)

/-- The whole-book invariant: both side invariants plus the fact that, in
every state reachable through mutations, the cache flag is false (every
mutation ends by invalidating the cache). -/
def BookInv (b : OrderBook) : Prop :=
  SideInv bidLtb b.bids b.bid_prices ∧ SideInv askLtb b.asks b.ask_prices ∧
    b.cache_valid = false

theorem bookInv_mkBook (sym : String) (pd qd : Nat) : BookInv (OrderBook.mkBook sym pd qd) :=
  ⟨sideInv_nil bidLtb, sideInv_nil askLtb, rfl⟩

theorem bookInv_UpdateBid (b : OrderBook) (hb : SideInv bidLtb b.bids b.bid_prices)
    (p : Price) (q : Quantity) :
    SideInv bidLtb (b.UpdateBid p q).bids (b.UpdateBid p q).bid_prices ∧
      (b.UpdateBid p q).asks = b.asks ∧ (b.UpdateBid p q).ask_prices = b.ask_prices ∧
      (b.UpdateBid p q).cache_valid = b.cache_valid := by
  unfold OrderBook.UpdateBid
  by_cases hq : q = 0
  · by_cases hp : (lookup b.bids p).isSome
    · simp only [if_pos hq, if_pos hp]
      exact ⟨sideInv_erase bidLtb bidLtb_strict _ _ hb p, by trivial, by trivial, by trivial⟩
    · simp only [if_pos hq, if_neg hp]
      exact ⟨hb, by trivial, by trivial, by trivial⟩
  · by_cases hp : (lookup b.bids p).isSome
    · simp only [if_neg hq, if_pos hp]
      have := sideInv_assign bidLtb bidLtb_strict _ _ hb p q hq
      rw [if_pos hp] at this
      exact ⟨this, by trivial, by trivial, by trivial⟩
    · simp only [if_neg hq, if_neg hp]
      have := sideInv_assign bidLtb bidLtb_strict _ _ hb p q hq
      rw [if_neg hp] at this
      exact ⟨this, by trivial, by trivial, by trivial⟩

theorem bookInv_UpdateAsk (b : OrderBook) (hb : SideInv askLtb b.asks b.ask_prices)
    (p : Price) (q : Quantity) :
    SideInv askLtb (b.UpdateAsk p q).asks (b.UpdateAsk p q).ask_prices ∧
      (b.UpdateAsk p q).bids = b.bids ∧ (b.UpdateAsk p q).bid_prices = b.bid_prices ∧
      (b.UpdateAsk p q).cache_valid = b.cache_valid := by
  unfold OrderBook.UpdateAsk
  by_cases hq : q = 0
  · by_cases hp : (lookup b.asks p).isSome
    · simp only [if_pos hq, if_pos hp]
      exact ⟨sideInv_erase askLtb askLtb_strict _ _ hb p, by trivial, by trivial, by trivial⟩
    · simp only [if_pos hq, if_neg hp]
      exact ⟨hb, by trivial, by trivial, by trivial⟩
  · by_cases hp : (lookup b.asks p).isSome
    · simp only [if_neg hq, if_pos hp]
      have := sideInv_assign askLtb askLtb_strict _ _ hb p q hq
      rw [if_pos hp] at this
      exact ⟨this, by trivial, by trivial, by trivial⟩
    · simp only [if_neg hq, if_neg hp]
      have := sideInv_assign askLtb askLtb_strict _ _ hb p q hq
      rw [if_neg hp] at this
      exact ⟨this, by trivial, by trivial, by trivial⟩

theorem Update_kBuy (b : OrderBook) (p : Price) (q : Quantity) :
    b.Update Side.kBuy p q =
      OrderBook.UpdateBid { b with update_count := b.update_count + 1, cache_valid := false }
        p q := rfl

theorem Update_kSell (b : OrderBook) (p : Price) (q : Quantity) :
    b.Update Side.kSell p q =
      OrderBook.UpdateAsk { b with update_count := b.update_count + 1, cache_valid := false }
        p q := rfl

theorem bookInv_Update (b : OrderBook) (hb : BookInv b) (side : Side) (p : Price)
    (q : Quantity) : BookInv (b.Update side p q) := by
  obtain ⟨hbid, hask, _hc⟩ := hb
  cases side
  case kBuy =>
    rw [Update_kBuy]
    have h := bookInv_UpdateBid
      { b with update_count := b.update_count + 1, cache_valid := false } hbid p q
    refine ⟨h.1, ?_, ?_⟩
    · rw [h.2.1, h.2.2.1]
      exact hask
    · rw [h.2.2.2]
  case kSell =>
    rw [Update_kSell]
    have h := bookInv_UpdateAsk
      { b with update_count := b.update_count + 1, cache_valid := false } hask p q
    refine ⟨?_, h.1, ?_⟩
    · rw [h.2.1, h.2.2.1]
      exact hbid
    · rw [h.2.2.2]

end HFT

namespace HFT

theorem bookInv_UpdateFromStrings (b : OrderBook) (hb : BookInv b) (side : Side)
    (ps qs : String) : BookInv (b.UpdateFromStrings side ps qs) :=
  bookInv_Update b hb side _ _

theorem bookInv_Clear (b : OrderBook) : BookInv b.Clear :=
  ⟨sideInv_nil bidLtb, sideInv_nil askLtb, rfl⟩

theorem bookInv_ClearSide (b : OrderBook) (hb : BookInv b) (side : Side) :
    BookInv (b.ClearSide side) := by
  obtain ⟨hbid, hask, _hc⟩ := hb
  cases side
  case kBuy => exact ⟨sideInv_nil bidLtb, hask, rfl⟩
  case kSell => exact ⟨hbid, sideInv_nil askLtb, rfl⟩

/-- A single mutation of the OrderBook public mutation surface. -/
inductive BookOp : Type where
  | update (side : Side) (price : Price) (quantity : Quantity) : BookOp
  | updateStrings (side : Side) (price_str quantity_str : String) : BookOp
  | clearAll : BookOp
  | clearSide (side : Side) : BookOp
deriving DecidableEq

/-- Apply one mutation. -/
def applyOp (b : OrderBook) : BookOp → OrderBook
  | BookOp.update side p q => b.Update side p q
  | BookOp.updateStrings side ps qs => b.UpdateFromStrings side ps qs
  | BookOp.clearAll => b.Clear
  | BookOp.clearSide side => b.ClearSide side

/-- Apply a sequence of mutations left to right. -/
def applyOps (b : OrderBook) (ops : List BookOp) : OrderBook :=
  ops.foldl applyOp b

theorem bookInv_applyOp (b : OrderBook) (hb : BookInv b) (op : BookOp) :
    BookInv (applyOp b op) := by
  cases op with
  | update side p q => exact bookInv_Update b hb side p q
  | updateStrings side ps qs => exact bookInv_UpdateFromStrings b hb side ps qs
  | clearAll => exact bookInv_Clear b
  | clearSide side => exact bookInv_ClearSide b hb side

theorem bookInv_applyOps (b : OrderBook) (hb : BookInv b) (ops : List BookOp) :
    BookInv (applyOps b ops) := by
  induction ops generalizing b with
  | nil => exact hb
  | cons op rest ih => exact ih (applyOp b op) (bookInv_applyOp b hb op)

/-! ### Reference linear scans over the level store -/

/-- Reference best bid: a full linear scan of the bid levels taking the
maximum price. -/
def scanBestBid : List (Price × Quantity) → Option Price
  | [] => none
  | (p, _) :: rest =>
    match scanBestBid rest with
    | none => some p
    | some m => some (max p m)

/-- Reference best ask: a full linear scan of the ask levels taking the
minimum price. -/
def scanBestAsk : List (Price × Quantity) → Option Price
  | [] => none
  | (p, _) :: rest =>
    match scanBestAsk rest with
    | none => some p
    | some m => some (min p m)

theorem scanBestBid_eq_none_iff (m : List (Price × Quantity)) :
    scanBestBid m = none ↔ m = [] := by
  cases m with
  | nil => simp [scanBestBid]
  | cons pq rest =>
    obtain ⟨p, q⟩ := pq
    simp only [scanBestBid]
    cases scanBestBid rest <;> simp

theorem scanBestAsk_eq_none_iff (m : List (Price × Quantity)) :
    scanBestAsk m = none ↔ m = [] := by
  cases m with
  | nil => simp [scanBestAsk]
  | cons pq rest =>
    obtain ⟨p, q⟩ := pq
    simp only [scanBestAsk]
    cases scanBestAsk rest <;> simp

theorem scanBestBid_spec (m : List (Price × Quantity)) (hm : m ≠ []) :
    ∃ M, scanBestBid m = some M ∧ M ∈ m.map Prod.fst ∧
      ∀ k ∈ m.map Prod.fst, k ≤ M := by
  induction m with
  | nil => exact absurd rfl hm
  | cons pq rest ih =>
    obtain ⟨p, q⟩ := pq
    by_cases hr : rest = []
    · subst hr
      refine ⟨p, ?_, ?_, ?_⟩ <;> simp [scanBestBid]
    · obtain ⟨M, hM, hMmem, hMmax⟩ := ih hr
      refine ⟨max p M, ?_, ?_, ?_⟩
      · simp [scanBestBid, hM]
      · rcases max_choice p M with hmx | hmx <;> rw [hmx]
        · simp
        · simp only [List.map_cons, List.mem_cons]
          exact Or.inr hMmem
      · intro k hk
        rcases List.mem_cons.1 hk with rfl | hk
        · exact le_max_left k M
        · exact le_trans (hMmax k hk) (le_max_right p M)

theorem scanBestAsk_spec (m : List (Price × Quantity)) (hm : m ≠ []) :
    ∃ M, scanBestAsk m = some M ∧ M ∈ m.map Prod.fst ∧
      ∀ k ∈ m.map Prod.fst, M ≤ k := by
  induction m with
  | nil => exact absurd rfl hm
  | cons pq rest ih =>
    obtain ⟨p, q⟩ := pq
    by_cases hr : rest = []
    · subst hr
      refine ⟨p, ?_, ?_, ?_⟩ <;> simp [scanBestAsk]
    · obtain ⟨M, hM, hMmem, hMmin⟩ := ih hr
      refine ⟨min p M, ?_, ?_, ?_⟩
      · simp [scanBestAsk, hM]
      · rcases min_choice p M with hmx | hmx <;> rw [hmx]
        · simp
        · simp only [List.map_cons, List.mem_cons]
          exact Or.inr hMmem
      · intro k hk
        rcases List.mem_cons.1 hk with rfl | hk
        · exact min_le_left k M
        · exact le_trans (min_le_right p M) (hMmin k hk)

/-- Under the side invariant, the head of the descending bid set is the
linear-scan maximum of the bid levels. -/
theorem head_eq_scanBestBid (m : List (Price × Quantity)) (s : List Price)
    (h : SideInv bidLtb m s) : s.head? = scanBestBid m := by
  cases hs : s with
  | nil =>
    have hm : m = [] := by
      cases hmc : m with
      | nil => rfl
      | cons kv rest =>
        obtain ⟨k, v⟩ := kv
        have : (lookup ((k, v) :: rest) k).isSome = true := by simp [lookup]
        have hk := (h.mem_iff k).1 (by rw [← hmc] at this; exact this)
        rw [hs] at hk
        exact absurd hk (List.not_mem_nil k)
    rw [hm]
    simp [scanBestBid]
  | cons p t =>
    have hm : m ≠ [] := by
      intro hmc
      have := (h.mem_iff p).2 (by rw [hs]; exact List.mem_cons_self p t)
      rw [hmc] at this
      simp [lookup] at this
    obtain ⟨M, hM, hMmem, hMmax⟩ := scanBestBid_spec m hm
    rw [hM, List.head?_cons]
    have hpmem : p ∈ m.map Prod.fst := by
      rw [← lookup_isSome_iff_mem_keys]
      exact (h.mem_iff p).2 (by rw [hs]; exact List.mem_cons_self p t)
    have hMs : M ∈ s := (h.mem_iff M).1 ((lookup_isSome_iff_mem_keys m M).2 hMmem)
    have hMle : M ≤ p := by
      rw [hs] at hMs
      rcases List.mem_cons.1 hMs with rfl | hMt
      · exact le_refl M
      · have hsorted := h.sorted
        rw [hs, List.pairwise_cons] at hsorted
        have := hsorted.1 M hMt
        simp only [bidLtb, decide_eq_true_eq] at this
        exact le_of_lt this
    have hple : p ≤ M := hMmax p hpmem
    rw [le_antisymm hMle hple]

/-- Under the side invariant, the head of the ascending ask set is the
linear-scan minimum of the ask levels. -/
theorem head_eq_scanBestAsk (m : List (Price × Quantity)) (s : List Price)
    (h : SideInv askLtb m s) : s.head? = scanBestAsk m := by
  cases hs : s with
  | nil =>
    have hm : m = [] := by
      cases hmc : m with
      | nil => rfl
      | cons kv rest =>
        obtain ⟨k, v⟩ := kv
        have : (lookup ((k, v) :: rest) k).isSome = true := by simp [lookup]
        have hk := (h.mem_iff k).1 (by rw [← hmc] at this; exact this)
        rw [hs] at hk
        exact absurd hk (List.not_mem_nil k)
    rw [hm]
    simp [scanBestAsk]
  | cons p t =>
    have hm : m ≠ [] := by
      intro hmc
      have := (h.mem_iff p).2 (by rw [hs]; exact List.mem_cons_self p t)
      rw [hmc] at this
      simp [lookup] at this
    obtain ⟨M, hM, hMmem, hMmin⟩ := scanBestAsk_spec m hm
    rw [hM, List.head?_cons]
    have hpmem : p ∈ m.map Prod.fst := by
      rw [← lookup_isSome_iff_mem_keys]
      exact (h.mem_iff p).2 (by rw [hs]; exact List.mem_cons_self p t)
    have hMs : M ∈ s := (h.mem_iff M).1 ((lookup_isSome_iff_mem_keys m M).2 hMmem)
    have hMge : p ≤ M := by
      rw [hs] at hMs
      rcases List.mem_cons.1 hMs with rfl | hMt
      · exact le_refl M
      · have hsorted := h.sorted
        rw [hs, List.pairwise_cons] at hsorted
        have := hsorted.1 M hMt
        simp only [askLtb, decide_eq_true_eq] at this
        exact le_of_lt this
    have hple : M ≤ p := hMmin p hpmem
    rw [le_antisymm hMge hple]

end HFT

namespace HFT

/-- A book state reachable from a freshly constructed book through the
public mutation surface. -/
def Reachable (b : OrderBook) : Prop :=
  ∃ sym pd qd ops, b = applyOps (OrderBook.mkBook sym pd qd) ops

theorem bookInv_reachable (b : OrderBook) (h : Reachable b) : BookInv b := by
  obtain ⟨sym, pd, qd, ops, rfl⟩ := h
  exact bookInv_applyOps _ (bookInv_mkBook sym pd qd) ops

theorem reachable_applyOp (b : OrderBook) (h : Reachable b) (op : BookOp) :
    Reachable (applyOp b op) := by
  obtain ⟨sym, pd, qd, ops, rfl⟩ := h
  refine ⟨sym, pd, qd, ops ++ [op], ?_⟩
  simp [applyOps, List.foldl_append]

theorem GetBestBid_eq_head (b : OrderBook) (hcv : b.cache_valid = false) :
    b.GetBestBid = b.bid_prices.head? := by
  simp [OrderBook.GetBestBid, OrderBook.RefreshCache, hcv]

theorem GetBestAsk_eq_head (b : OrderBook) (hcv : b.cache_valid = false) :
    b.GetBestAsk = b.ask_prices.head? := by
  simp [OrderBook.GetBestAsk, OrderBook.RefreshCache, hcv]

/-- The side's lookup map, as the queries select it. -/
def sideLevels (b : OrderBook) (side : Side) : List (Price × Quantity) :=
  match side with
  | Side.kBuy => b.bids
  | Side.kSell => b.asks

/-- The side's ordered price set, as the queries select it. -/
def sidePrices (b : OrderBook) (side : Side) : List Price :=
  match side with
  | Side.kBuy => b.bid_prices
  | Side.kSell => b.ask_prices

theorem GetQuantityAt_eq (b : OrderBook) (side : Side) (p : Price) :
    b.GetQuantityAt side p = (lookup (sideLevels b side) p).getD 0 := by
  cases side
  case kBuy =>
    simp only [OrderBook.GetQuantityAt, sideLevels]
    cases lookup b.bids p <;> rfl
  case kSell =>
    simp only [OrderBook.GetQuantityAt, sideLevels]
    cases lookup b.asks p <;> rfl

theorem GetTopLevels_eq (b : OrderBook) (side : Side) (n : Nat) :
    b.GetTopLevels side n =
      ((sidePrices b side).take n).map
        (fun p => ⟨p, (lookup (sideLevels b side) p).getD 0⟩) := by
  cases side <;> rfl

theorem GetLevelCount_eq (b : OrderBook) (side : Side) :
    b.GetLevelCount side = (sidePrices b side).length := by
  cases side <;> rfl

theorem sideInv_of_bookInv (b : OrderBook) (hb : BookInv b) (side : Side) :
    ∃ ltb, StrictCmp ltb ∧ SideInv ltb (sideLevels b side) (sidePrices b side) := by
  cases side
  case kBuy => exact ⟨bidLtb, bidLtb_strict, hb.1⟩
  case kSell => exact ⟨askLtb, askLtb_strict, hb.2.1⟩

/-- C2: in every reachable book state (that is, immediately after every
sequence of Update/Clear mutations), GetBestBid and GetBestAsk equal the
maximum resp. minimum price found by a full linear scan of the side's
levels, every stored level quantity is nonzero, and each query returns
none exactly when its side is empty. -/
theorem C2_best_price_matches_linear_scan (b : OrderBook) (hr : Reachable b) :
    b.GetBestBid = scanBestBid b.bids ∧
    b.GetBestAsk = scanBestAsk b.asks ∧
    (b.GetBestBid = none ↔ b.bids = []) ∧
    (b.GetBestAsk = none ↔ b.asks = []) ∧
    (∀ p q, lookup b.bids p = some q → q ≠ 0) ∧
    (∀ p q, lookup b.asks p = some q → q ≠ 0) := by
  obtain ⟨hbid, hask, hcv⟩ := bookInv_reachable b hr
  have h1 : b.GetBestBid = scanBestBid b.bids := by
    rw [GetBestBid_eq_head b hcv]
    exact head_eq_scanBestBid b.bids b.bid_prices hbid
  have h2 : b.GetBestAsk = scanBestAsk b.asks := by
    rw [GetBestAsk_eq_head b hcv]
    exact head_eq_scanBestAsk b.asks b.ask_prices hask
  refine ⟨h1, h2, ?_, ?_, hbid.nonzero, hask.nonzero⟩
  · rw [h1]
    exact scanBestBid_eq_none_iff b.bids
  · rw [h2]
    exact scanBestAsk_eq_none_iff b.asks

/-- Witness for C2 at a concrete mutation sequence. -/
theorem C2_best_price_matches_linear_scan_witness :
    let b := applyOps (OrderBook.mkBook "btcusdt" 2 8)
      [BookOp.update Side.kBuy 10000 100, BookOp.update Side.kBuy 9950 200,
       BookOp.update Side.kSell 10050 50]
    b.GetBestBid = scanBestBid b.bids ∧ b.GetBestAsk = scanBestAsk b.asks := by
  have h := C2_best_price_matches_linear_scan
    (applyOps (OrderBook.mkBook "btcusdt" 2 8)
      [BookOp.update Side.kBuy 10000 100, BookOp.update Side.kBuy 9950 200,
       BookOp.update Side.kSell 10050 50])
    ⟨"btcusdt", 2, 8, _, rfl⟩
  exact ⟨h.1, h.2.1⟩

/-- C6: in every reachable book state, a price is a key of the side's
lookup map exactly when it is an element of the side's ordered price
set. -/
theorem C6_lookup_and_ordered_structures_agree (b : OrderBook) (hr : Reachable b)
    (side : Side) (p : Price) :
    p ∈ (sideLevels b side).map Prod.fst ↔ p ∈ sidePrices b side := by
  obtain ⟨ltb, _hc, hs⟩ := sideInv_of_bookInv b (bookInv_reachable b hr) side
  rw [← lookup_isSome_iff_mem_keys]
  exact hs.mem_iff p

/-- Witness for C6 at a concrete state. -/
theorem C6_lookup_and_ordered_structures_agree_witness :
    (10000 : Price) ∈ (sideLevels (applyOps (OrderBook.mkBook "btcusdt" 2 8)
        [BookOp.update Side.kBuy 10000 100]) Side.kBuy).map Prod.fst ↔
      (10000 : Price) ∈ sidePrices (applyOps (OrderBook.mkBook "btcusdt" 2 8)
        [BookOp.update Side.kBuy 10000 100]) Side.kBuy :=
  C6_lookup_and_ordered_structures_agree _ ⟨"btcusdt", 2, 8, _, rfl⟩ Side.kBuy 10000

end HFT

namespace HFT

theorem GetBest_eq_scan (b : OrderBook) (hb : BookInv b) :
    b.GetBestBid = scanBestBid b.bids ∧ b.GetBestAsk = scanBestAsk b.asks := by
  obtain ⟨hbid, hask, hcv⟩ := hb
  constructor
  · rw [GetBestBid_eq_head b hcv]
    exact head_eq_scanBestBid b.bids b.bid_prices hbid
  · rw [GetBestAsk_eq_head b hcv]
    exact head_eq_scanBestAsk b.asks b.ask_prices hask

/-- C7: in every reachable book state, whenever both sides are non-empty
GetSpread is exactly best_ask - best_bid and GetMidPrice is exactly
(best_bid + best_ask) / 2 under truncating (toward-zero) integer
division on the fixed-point values, and whenever either side is empty
both queries return none. -/
theorem C7_spread_and_mid (b : OrderBook) (hr : Reachable b) :
    (∀ bid ask, b.GetBestBid = some bid → b.GetBestAsk = some ask →
      b.GetSpread = some (ask - bid) ∧
      b.GetMidPrice = some (Int.tdiv (bid + ask) 2)) ∧
    (b.bids ≠ [] → b.asks ≠ [] →
      ∃ bid ask, b.GetBestBid = some bid ∧ b.GetBestAsk = some ask) ∧
    (b.bids = [] ∨ b.asks = [] → b.GetSpread = none ∧ b.GetMidPrice = none) := by
  have hb := bookInv_reachable b hr
  have hscan := GetBest_eq_scan b hb
  refine ⟨?_, ?_, ?_⟩
  · intro bid ask hbid hask
    constructor
    · simp [OrderBook.GetSpread, hbid, hask]
    · simp [OrderBook.GetMidPrice, hbid, hask]
  · intro hbne hane
    obtain ⟨M, hM, -, -⟩ := scanBestBid_spec b.bids hbne
    obtain ⟨N, hN, -, -⟩ := scanBestAsk_spec b.asks hane
    exact ⟨M, N, by rw [hscan.1, hM], by rw [hscan.2, hN]⟩
  · intro hemp
    rcases hemp with hemp | hemp
    · have hnone : b.GetBestBid = none := by
        rw [hscan.1, scanBestBid_eq_none_iff]
        exact hemp
      constructor
      · simp [OrderBook.GetSpread, hnone]
      · simp [OrderBook.GetMidPrice, hnone]
    · have hnone : b.GetBestAsk = none := by
        rw [hscan.2, scanBestAsk_eq_none_iff]
        exact hemp
      constructor
      · simp [OrderBook.GetSpread, hnone]
      · simp [OrderBook.GetMidPrice, hnone]

/-- Witness for C7 at a concrete state with both sides non-empty. -/
theorem C7_spread_and_mid_witness :
    (applyOps (OrderBook.mkBook "btcusdt" 2 8)
        [BookOp.update Side.kBuy 10000 100,
         BookOp.update Side.kSell 10050 50]).GetSpread = some 50 ∧
    (applyOps (OrderBook.mkBook "btcusdt" 2 8)
        [BookOp.update Side.kBuy 10000 100,
         BookOp.update Side.kSell 10050 50]).GetMidPrice = some 10025 := by
  have h := (C7_spread_and_mid
    (applyOps (OrderBook.mkBook "btcusdt" 2 8)
      [BookOp.update Side.kBuy 10000 100, BookOp.update Side.kSell 10050 50])
    ⟨"btcusdt", 2, 8, _, rfl⟩).1 10000 10050 (by decide) (by decide)
  exact ⟨by rw [h.1]; decide, by rw [h.2]; decide⟩

/-- C8: in every reachable book state, GetTopLevels with n = 0 is empty;
when n exceeds the level count it returns exactly level-count entries;
and the returned levels are strictly ordered best to worst (descending
prices for bids, ascending for asks). -/
theorem C8_top_levels_shape (b : OrderBook) (hr : Reachable b) (side : Side) (n : Nat) :
    b.GetTopLevels side 0 = [] ∧
    (b.GetLevelCount side < n →
      (b.GetTopLevels side n).length = b.GetLevelCount side) ∧
    (b.GetTopLevels Side.kBuy n).Pairwise
      (fun l1 l2 : PriceLevel => l2.price < l1.price) ∧
    (b.GetTopLevels Side.kSell n).Pairwise
      (fun l1 l2 : PriceLevel => l1.price < l2.price) := by
  have hb := bookInv_reachable b hr
  refine ⟨?_, ?_, ?_, ?_⟩
  · rw [GetTopLevels_eq]
    simp
  · intro hn
    rw [GetTopLevels_eq, GetLevelCount_eq] at *
    rw [List.length_map, List.length_take]
    exact Nat.min_eq_right (le_of_lt hn)
  · rw [GetTopLevels_eq]
    rw [List.pairwise_map]
    refine List.Pairwise.sublist (List.take_sublist n _) ?_
    refine hb.1.sorted.imp ?_
    intro a c hac
    simpa [bidLtb] using hac
  · rw [GetTopLevels_eq]
    rw [List.pairwise_map]
    refine List.Pairwise.sublist (List.take_sublist n _) ?_
    refine hb.2.1.sorted.imp ?_
    intro a c hac
    simpa [askLtb] using hac

/-- Witness for C8 at a concrete two-level state. -/
theorem C8_top_levels_shape_witness :
    ((applyOps (OrderBook.mkBook "btcusdt" 2 8)
        [BookOp.update Side.kBuy 10000 100,
         BookOp.update Side.kBuy 9950 200]).GetTopLevels Side.kBuy 5).length = 2 := by
  have h := (C8_top_levels_shape
    (applyOps (OrderBook.mkBook "btcusdt" 2 8)
      [BookOp.update Side.kBuy 10000 100, BookOp.update Side.kBuy 9950 200])
    ⟨"btcusdt", 2, 8, _, rfl⟩ Side.kBuy 5).2.1 (by decide)
  rw [h]
  decide

end HFT

namespace HFT

theorem GetTopLevels_map_price (b : OrderBook) (side : Side) (n : Nat) :
    (b.GetTopLevels side n).map PriceLevel.price = (sidePrices b side).take n := by
  have hcomp : (PriceLevel.price ∘ fun p =>
      (⟨p, (lookup (sideLevels b side) p).getD 0⟩ : PriceLevel)) = id := by
    funext p
    rfl
  rw [GetTopLevels_eq, List.map_map, hcomp, List.map_id]

theorem Update_zero_side (b : OrderBook) (side : Side) (P : Price) :
    sideLevels (b.Update side P 0) side =
      (if (lookup (sideLevels b side) P).isSome then eraseKey (sideLevels b side) P
       else sideLevels b side) ∧
    sidePrices (b.Update side P 0) side =
      (if (lookup (sideLevels b side) P).isSome then (sidePrices b side).erase P
       else sidePrices b side) := by
  cases side
  case kBuy =>
    rw [Update_kBuy]
    by_cases hp : (lookup b.bids P).isSome <;>
      simp [OrderBook.UpdateBid, sideLevels, sidePrices, hp]
  case kSell =>
    rw [Update_kSell]
    by_cases hp : (lookup b.asks P).isSome <;>
      simp [OrderBook.UpdateAsk, sideLevels, sidePrices, hp]

/-- C3: in every reachable book state, after Update(side, P, 0) the
quantity at P reads as zero, P appears in no GetTopLevels output and is
not counted by GetLevelCount (the count is that of the non-P prices);
and when P was absent the update leaves the side's two structures
unchanged. -/
theorem C3_zero_quantity_removes_level (b : OrderBook) (hr : Reachable b)
    (side : Side) (P : Price) :
    (b.Update side P 0).GetQuantityAt side P = 0 ∧
    (∀ n, P ∉ ((b.Update side P 0).GetTopLevels side n).map PriceLevel.price) ∧
    (b.Update side P 0).GetLevelCount side =
      ((sidePrices b side).filter (fun x => x != P)).length ∧
    (lookup (sideLevels b side) P = none →
      sideLevels (b.Update side P 0) side = sideLevels b side ∧
      sidePrices (b.Update side P 0) side = sidePrices b side) := by
  obtain ⟨ltb, hc, hs⟩ := sideInv_of_bookInv b (bookInv_reachable b hr) side
  obtain ⟨hlev, hpri⟩ := Update_zero_side b side P
  have hnodup_s : (sidePrices b side).Nodup := hs.nodup_set hc
  by_cases hp : (lookup (sideLevels b side) P).isSome
  · rw [if_pos hp] at hlev hpri
    have hPnot : P ∉ sidePrices (b.Update side P 0) side := by
      rw [hpri]
      intro hmem
      exact ((hnodup_s.mem_erase_iff).1 hmem).1 rfl
    refine ⟨?_, ?_, ?_, ?_⟩
    · rw [GetQuantityAt_eq, hlev, lookup_eraseKey_self _ _ hs.nodup_keys]
      rfl
    · intro n hmem
      rw [GetTopLevels_map_price] at hmem
      exact hPnot (List.mem_of_mem_take hmem)
    · rw [GetLevelCount_eq, hpri, hnodup_s.erase_eq_filter]
    · intro habs
      rw [habs] at hp
      exact absurd hp (by simp)
  · rw [if_neg hp] at hlev hpri
    have hPnot : P ∉ sidePrices b side := fun hmem => hp ((hs.mem_iff P).2 hmem)
    refine ⟨?_, ?_, ?_, ?_⟩
    · rw [GetQuantityAt_eq, hlev]
      rcases ho : lookup (sideLevels b side) P with _ | q
      · rfl
      · rw [ho] at hp
        exact absurd (by simp) hp
    · intro n hmem
      rw [GetTopLevels_map_price, hpri] at hmem
      exact hPnot (List.mem_of_mem_take hmem)
    · rw [GetLevelCount_eq, hpri]
      have : List.filter (fun x => x != P) (sidePrices b side) = sidePrices b side := by
        rw [List.filter_eq_self]
        intro a ha
        simp only [bne_iff_ne, ne_eq]
        intro haP
        rw [haP] at ha
        exact hPnot ha
      rw [this]
    · intro _habs
      exact ⟨hlev, hpri⟩

/-- Witness for C3 at a concrete state where the price is present. -/
theorem C3_zero_quantity_removes_level_witness :
    ((applyOps (OrderBook.mkBook "btcusdt" 2 8)
        [BookOp.update Side.kBuy 10000 100]).Update Side.kBuy 10000 0).GetQuantityAt
      Side.kBuy 10000 = 0 :=
  (C3_zero_quantity_removes_level
    (applyOps (OrderBook.mkBook "btcusdt" 2 8) [BookOp.update Side.kBuy 10000 100])
    ⟨"btcusdt", 2, 8, _, rfl⟩ Side.kBuy 10000).1

/-- The opposite side, used to state the one-sided-clear frame claim. -/
def otherSide : Side → Side
  | Side.kBuy => Side.kSell
  | Side.kSell => Side.kBuy

/-- C10: Clear(side) leaves the opposite side entirely unchanged as seen
through GetQuantityAt, GetLevelCount and GetTopLevels, while the shared
best-price cache is invalidated. -/
theorem C10_clear_side_frames_other_side (b : OrderBook) (side : Side) (P : Price)
    (n : Nat) :
    (b.ClearSide side).GetQuantityAt (otherSide side) P
        = b.GetQuantityAt (otherSide side) P ∧
    (b.ClearSide side).GetLevelCount (otherSide side)
        = b.GetLevelCount (otherSide side) ∧
    (b.ClearSide side).GetTopLevels (otherSide side) n
        = b.GetTopLevels (otherSide side) n ∧
    (b.ClearSide side).cache_valid = false := by
  cases side <;>
    exact ⟨rfl, rfl, rfl, rfl⟩

end HFT

namespace HFT

theorem onDepthUpdate_live_stale (st : StreamState) (u : DepthUpdate)
    (fetch : Option DepthSnapshot) (hsync : st.synchronized = true)
    (hstale : u.final_update_id ≤ st.last_update_id) :
    onDepthUpdate st u fetch = st := by
  unfold onDepthUpdate
  rw [hsync]
  simp [hstale]

theorem onDepthUpdate_live_apply (st : StreamState) (u : DepthUpdate)
    (fetch : Option DepthSnapshot) (hsync : st.synchronized = true)
    (hfresh : st.last_update_id < u.final_update_id) :
    onDepthUpdate st u fetch =
      { synchronized := true, last_update_id := u.final_update_id,
        book := applyUpdatePairs st.book u } := by
  unfold onDepthUpdate
  rw [hsync]
  simp [not_le.2 hfresh]

/-- C4: once synchronized, an update whose final_update_seq is at most
last_applied_sequence is discarded without touching any state; in
particular processing the same update a second time (after the first
processing in a synchronized state) changes nothing. -/
theorem C4_stale_updates_are_noops :
    (∀ (st : StreamState) (u : DepthUpdate) (fetch : Option DepthSnapshot),
      st.synchronized = true → u.final_update_id ≤ st.last_update_id →
        onDepthUpdate st u fetch = st) ∧
    (∀ (st : StreamState) (u : DepthUpdate) (f1 f2 : Option DepthSnapshot),
      st.synchronized = true →
        onDepthUpdate (onDepthUpdate st u f1) u f2 = onDepthUpdate st u f1) := by
  constructor
  · intro st u fetch hsync hstale
    exact onDepthUpdate_live_stale st u fetch hsync hstale
  · intro st u f1 f2 hsync
    by_cases hst : u.final_update_id ≤ st.last_update_id
    · rw [onDepthUpdate_live_stale st u f1 hsync hst,
          onDepthUpdate_live_stale st u f2 hsync hst]
    · rw [onDepthUpdate_live_apply st u f1 hsync (not_le.1 hst)]
      exact onDepthUpdate_live_stale _ u f2 rfl (le_refl _)

/-- Witness for C4: a stale update (bounds [95, 100] against
last_applied 100) leaves the state untouched. -/
theorem C4_stale_updates_are_noops_witness :
    onDepthUpdate
        { synchronized := true, last_update_id := 100,
          book := OrderBook.mkBook "btcusdt" 2 8 }
        { first_update_id := 95, final_update_id := 100,
          bids := [("30000.50", "1.00000000")], asks := [] } none
      = { synchronized := true, last_update_id := 100,
          book := OrderBook.mkBook "btcusdt" 2 8 } :=
  C4_stale_updates_are_noops.1 _ _ none rfl (by decide)

/-- C1 counterexample: with last_applied_sequence = 100, the incoming
update with bounds [105, 110] (a gap, since 105 > 101) is nevertheless
applied by the code: the bid store changes, last_applied becomes 110 and
the synchronized flag stays true, contradicting the claimed rejection
and transition to Unsynchronized. -/
theorem C1_counterexample_gap_update_is_applied :
    (onDepthUpdate
        { synchronized := true, last_update_id := 100,
          book := OrderBook.mkBook "btcusdt" 2 8 }
        { first_update_id := 105, final_update_id := 110,
          bids := [("30000.50", "1.00000000")], asks := [] } none).last_update_id
      = 110 ∧
    (onDepthUpdate
        { synchronized := true, last_update_id := 100,
          book := OrderBook.mkBook "btcusdt" 2 8 }
        { first_update_id := 105, final_update_id := 110,
          bids := [("30000.50", "1.00000000")], asks := [] } none).synchronized
      = true ∧
    (onDepthUpdate
        { synchronized := true, last_update_id := 100,
          book := OrderBook.mkBook "btcusdt" 2 8 }
        { first_update_id := 105, final_update_id := 110,
          bids := [("30000.50", "1.00000000")], asks := [] } none).book.bids
      = [(3000050, 100000000)] ∧
    (OrderBook.mkBook "btcusdt" 2 8).bids = [] := by
  refine ⟨rfl, rfl, ?_, rfl⟩
  decide

/-- C1 amended: in the synchronized (Live) state the handler performs no
gap check at all: every update with final_update_seq greater than
last_applied_sequence — including one whose first_update_seq exceeds
last_applied_sequence + 1 — is applied in full, last_applied_sequence
becomes its final_update_seq, and the state never transitions back to
unsynchronized. -/
theorem C1_amended_gap_updates_are_applied (st : StreamState) (u : DepthUpdate)
    (fetch : Option DepthSnapshot) (hsync : st.synchronized = true)
    (_hgap : st.last_update_id + 1 < u.first_update_id)
    (hfresh : st.last_update_id < u.final_update_id) :
    onDepthUpdate st u fetch =
      { synchronized := true, last_update_id := u.final_update_id,
        book := applyUpdatePairs st.book u } :=
  onDepthUpdate_live_apply st u fetch hsync hfresh

/-- Witness for the amended C1 at the concrete gap input [105, 110]. -/
theorem C1_amended_gap_updates_are_applied_witness :
    onDepthUpdate
        { synchronized := true, last_update_id := 100,
          book := OrderBook.mkBook "btcusdt" 2 8 }
        { first_update_id := 105, final_update_id := 110,
          bids := [("30000.50", "1.00000000")], asks := [] } none
      = { synchronized := true, last_update_id := 110,
          book := applyUpdatePairs (OrderBook.mkBook "btcusdt" 2 8)
            { first_update_id := 105, final_update_id := 110,
              bids := [("30000.50", "1.00000000")], asks := [] } } :=
  C1_amended_gap_updates_are_applied _ _ none rfl (by decide) (by decide)

/-- C5 counterexample: a record with inverted sequence bounds
(first_update_seq = 120 > final_update_seq = 110) is not rejected: the
handler mutates the bid store and advances last_applied_sequence, with
no error reported anywhere in the core. -/
theorem C5_counterexample_inverted_bounds_applied :
    (onDepthUpdate
        { synchronized := true, last_update_id := 100,
          book := OrderBook.mkBook "btcusdt" 2 8 }
        { first_update_id := 120, final_update_id := 110,
          bids := [("30000.50", "1.00000000")], asks := [] } none).book.bids
      = [(3000050, 100000000)] ∧
    (onDepthUpdate
        { synchronized := true, last_update_id := 100,
          book := OrderBook.mkBook "btcusdt" 2 8 }
        { first_update_id := 120, final_update_id := 110,
          bids := [("30000.50", "1.00000000")], asks := [] } none).last_update_id
      = 110 ∧
    (OrderBook.mkBook "btcusdt" 2 8).bids = [] := by
  refine ⟨?_, rfl, rfl⟩
  decide

/-- C5 amended: the core performs no structural validation of sequence
bounds: a record with first_update_seq > final_update_seq is treated
exactly like any other record, decided only by its final_update_seq —
silently discarded when final_update_seq <= last_applied_sequence and
fully applied (mutating the store) when final_update_seq >
last_applied_sequence; no error value is produced. -/
theorem C5_amended_inverted_bounds_not_validated (st : StreamState) (u : DepthUpdate)
    (fetch : Option DepthSnapshot) (hsync : st.synchronized = true)
    (_hinv : u.final_update_id < u.first_update_id) :
    (u.final_update_id ≤ st.last_update_id → onDepthUpdate st u fetch = st) ∧
    (st.last_update_id < u.final_update_id →
      onDepthUpdate st u fetch =
        { synchronized := true, last_update_id := u.final_update_id,
          book := applyUpdatePairs st.book u }) := by
  constructor
  · intro hstale
    exact onDepthUpdate_live_stale st u fetch hsync hstale
  · intro hfresh
    exact onDepthUpdate_live_apply st u fetch hsync hfresh

/-- Witness for the amended C5 at the concrete inverted input [120, 110]. -/
theorem C5_amended_inverted_bounds_not_validated_witness :
    onDepthUpdate
        { synchronized := true, last_update_id := 100,
          book := OrderBook.mkBook "btcusdt" 2 8 }
        { first_update_id := 120, final_update_id := 110,
          bids := [("30000.50", "1.00000000")], asks := [] } none
      = { synchronized := true, last_update_id := 110,
          book := applyUpdatePairs (OrderBook.mkBook "btcusdt" 2 8)
            { first_update_id := 120, final_update_id := 110,
              bids := [("30000.50", "1.00000000")], asks := [] } } :=
  (C5_amended_inverted_bounds_not_validated _ _ none rfl (by decide)).2 (by decide)

end HFT

namespace HFT.SymbolConfig

/-- Decimal value accumulated left to right, exactly like the digit
branch of the StringToFixed loop. -/
def valFrom (r : Int) : List Char → Int
  | [] => r
  | c :: cs => valFrom (r * 10 + digitVal c) cs

theorem valFrom_append (a b : List Char) (r : Int) :
    valFrom r (a ++ b) = valFrom (valFrom r a) b := by
  induction a generalizing r with
  | nil => rfl
  | cons c cs ih => simp [valFrom, ih]

theorem valFrom_hom (ds : List Char) (r : Int) :
    valFrom r ds = r * (10 : Int) ^ ds.length + valFrom 0 ds := by
  induction ds generalizing r with
  | nil => simp [valFrom]
  | cons c cs ih =>
    simp only [valFrom, List.length_cons, zero_mul, zero_add]
    rw [ih (r * 10 + digitVal c), ih (digitVal c)]
    ring

theorem valFrom_replicate_zero (k : Nat) (r : Int) :
    valFrom r (List.replicate k '0') = r * (10 : Int) ^ k := by
  induction k generalizing r with
  | zero => simp [valFrom]
  | succ n ih =>
    simp only [List.replicate_succ, valFrom]
    have h0 : digitVal '0' = 0 := by decide
    rw [h0, add_zero, ih]
    ring

theorem digit_char_spec (k : Nat) (hk : k < 10) :
    isDigitChar (Char.ofNat (48 + k)) = true ∧
      digitVal (Char.ofNat (48 + k)) = (k : Int) ∧ Char.ofNat (48 + k) ≠ '.' := by
  interval_cases k <;> exact ⟨by decide, by decide, by decide⟩

theorem natDigits_all_digits (n : Nat) :
    ∀ c ∈ natDigits n, isDigitChar c = true := by
  induction n using Nat.strong_induction_on with
  | _ n ih =>
    by_cases h : n < 10
    · rw [natDigits, dif_pos h]
      intro c hc
      rw [List.mem_singleton] at hc
      subst hc
      exact (digit_char_spec n h).1
    · rw [natDigits, dif_neg h]
      intro c hc
      rcases List.mem_append.1 hc with hc | hc
      · exact ih (n / 10) (Nat.div_lt_self (by omega) (by omega)) c hc
      · rw [List.mem_singleton] at hc
        subst hc
        exact (digit_char_spec (n % 10) (Nat.mod_lt n (by omega))).1

theorem natDigits_val (n : Nat) : valFrom 0 (natDigits n) = (n : Int) := by
  induction n using Nat.strong_induction_on with
  | _ n ih =>
    by_cases h : n < 10
    · rw [natDigits, dif_pos h]
      simp only [valFrom, zero_mul, zero_add]
      exact (digit_char_spec n h).2.1
    · rw [natDigits, dif_neg h]
      rw [valFrom_append, ih (n / 10) (Nat.div_lt_self (by omega) (by omega))]
      simp only [valFrom]
      rw [(digit_char_spec (n % 10) (Nat.mod_lt n (by omega))).2.1]
      push_cast
      omega

theorem digit_ne_dot (c : Char) (h : isDigitChar c = true) : c ≠ '.' := by
  intro hc
  subst hc
  exact absurd h (by decide)

end HFT.SymbolConfig

namespace HFT.SymbolConfig

theorem stfLoop_before_dot (d : Nat) (pre : List Char) (hpre : '.' ∉ pre) :
    ∀ (rest : List Char) (r : Int) (dc : Nat),
      stfLoop d (pre ++ rest) r false dc
        = stfLoop d rest (valFrom r (pre.filter isDigitChar)) false dc := by
  induction pre with
  | nil =>
    intro rest r dc
    rfl
  | cons c cs ih =>
    intro rest r dc
    have hc : ¬ c = '.' := fun h => hpre (by rw [h]; exact List.mem_cons_self '.' cs)
    have hcs : '.' ∉ cs := fun h => hpre (List.mem_cons_of_mem c h)
    by_cases hd : isDigitChar c
    · simp only [List.cons_append, stfLoop, if_neg hc, hd, if_pos, Bool.false_eq_true,
        if_false, List.append_eq]
      rw [ih hcs rest (r * 10 + digitVal c) dc]
      simp [List.filter_cons, hd, valFrom]
    · simp only [List.cons_append, stfLoop, if_neg hc, hd, Bool.false_eq_true, if_false,
        List.append_eq]
      rw [ih hcs rest r dc]
      simp [List.filter_cons, hd]

theorem stfLoop_frac (d : Nat) (B : List Char) :
    ∀ (rest : List Char) (r : Int) (dcount : Nat),
      (∀ c ∈ B, isDigitChar c = true) → dcount < d → B.length = d - dcount →
      stfLoop d (B ++ rest) r true dcount = (valFrom r B, d) := by
  induction B with
  | nil =>
    intro rest r dcount _hB hdc hlen
    simp at hlen
    omega
  | cons c B2 ih =>
    intro rest r dcount hB hdc hlen
    have hcd : isDigitChar c = true := hB c (List.mem_cons_self c B2)
    have hcdot : ¬ c = '.' := digit_ne_dot c hcd
    simp only [List.length_cons] at hlen
    by_cases hbreak : dcount + 1 ≥ d
    · have hB2 : B2 = [] := by
        have : B2.length = 0 := by omega
        exact List.length_eq_zero.1 this
      subst hB2
      simp only [List.nil_append, List.cons_append, stfLoop, if_neg hcdot, hcd, if_pos,
        if_true]
      rw [if_pos hbreak]
      have hdd : dcount + 1 = d := by omega
      rw [hdd]
      rfl
    · simp only [List.cons_append, stfLoop, if_neg hcdot, hcd, if_pos, if_true,
        List.append_eq]
      rw [if_neg hbreak]
      rw [ih rest (r * 10 + digitVal c) (dcount + 1)
        (fun x hx => hB x (List.mem_cons_of_mem c hx)) (by omega) (by omega)]
      rfl

theorem stfLoop_around_dot (d : Nat) (hd : 1 ≤ d) (A B rest : List Char)
    (hA : '.' ∉ A) (hB : ∀ c ∈ B, isDigitChar c = true) (hlen : B.length = d) :
    stfLoop d (A ++ '.' :: (B ++ rest)) 0 false 0
      = (valFrom (valFrom 0 (A.filter isDigitChar)) B, d) := by
  rw [stfLoop_before_dot d A hA ('.' :: (B ++ rest)) 0 0]
  have hdot : stfLoop d ('.' :: (B ++ rest)) (valFrom 0 (A.filter isDigitChar)) false 0
      = stfLoop d (B ++ rest) (valFrom 0 (A.filter isDigitChar)) true 0 := by
    simp [stfLoop]
  rw [hdot]
  exact stfLoop_frac d B rest (valFrom 0 (A.filter isDigitChar)) 0 hB (by omega)
    (by omega)

theorem StringToFixed_around_dot (d : Nat) (hd : 1 ≤ d) (A B rest : List Char)
    (hA : '.' ∉ A) (hB : ∀ c ∈ B, isDigitChar c = true) (hlen : B.length = d) :
    StringToFixed (String.mk (A ++ '.' :: (B ++ rest))) d
      = valFrom (valFrom 0 (A.filter isDigitChar)) B := by
  unfold StringToFixed
  rw [show (String.mk (A ++ '.' :: (B ++ rest))).data = A ++ '.' :: (B ++ rest) from rfl]
  rw [stfLoop_around_dot d hd A B rest hA hB hlen]
  simp

end HFT.SymbolConfig

namespace HFT.SymbolConfig

theorem natDigits_ne_nil (n : Nat) : natDigits n ≠ [] := by
  by_cases h : n < 10
  · rw [natDigits, dif_pos h]
    simp
  · rw [natDigits, dif_neg h]
    simp

theorem StringToFixed_around_dot_closed (d : Nat) (hd : 1 ≤ d) (A B : List Char)
    (hA : '.' ∉ A) (hB : ∀ c ∈ B, isDigitChar c = true) (hlen : B.length = d) :
    StringToFixed (String.mk (A ++ '.' :: B)) d
      = valFrom (valFrom 0 (A.filter isDigitChar)) B := by
  have h := StringToFixed_around_dot d hd A B [] hA hB hlen
  rw [List.append_nil] at h
  exact h

theorem fixedChars_pos_eq (v : Int) (h0 : ¬ v = 0) (hneg : ¬ v < 0) (d : Nat) :
    fixedChars v d =
      (List.replicate (d + 1 - (natDigits v.natAbs).length) '0'
          ++ natDigits v.natAbs).take
        ((List.replicate (d + 1 - (natDigits v.natAbs).length) '0'
            ++ natDigits v.natAbs).length - d)
      ++ '.' ::
      (List.replicate (d + 1 - (natDigits v.natAbs).length) '0'
          ++ natDigits v.natAbs).drop
        ((List.replicate (d + 1 - (natDigits v.natAbs).length) '0'
            ++ natDigits v.natAbs).length - d) := by
  simp only [fixedChars, if_neg h0, intChars, if_neg hneg]

theorem StringToFixed_FixedToString (v : Int) (d : Nat) (hv : 0 ≤ v) (hd : 1 ≤ d) :
    StringToFixed (FixedToString v d) d = v := by
  by_cases h0 : v = 0
  · subst h0
    have harg : fixedChars 0 d = ['0'] ++ '.' :: List.replicate d '0' := by
      simp [fixedChars]
    unfold FixedToString
    rw [harg, StringToFixed_around_dot_closed d hd ['0'] (List.replicate d '0')
      (by decide) (fun c hc => by rw [List.eq_of_mem_replicate hc]; decide) (by simp)]
    have hfil : valFrom 0 (List.filter isDigitChar ['0']) = 0 := by decide
    rw [hfil, valFrom_replicate_zero]
    ring
  · have hneg : ¬ v < 0 := not_lt.2 hv
    have harg := fixedChars_pos_eq v h0 hneg d
    generalize hs1 :
      List.replicate (d + 1 - (natDigits v.natAbs).length) '0' ++ natDigits v.natAbs
        = s1 at harg
    have hs1digits : ∀ c ∈ s1, isDigitChar c = true := by
      intro c hc
      rw [← hs1] at hc
      rcases List.mem_append.1 hc with hc | hc
      · rw [List.eq_of_mem_replicate hc]
        decide
      · exact natDigits_all_digits v.natAbs c hc
    have hLd : d < s1.length := by
      rw [← hs1, List.length_append, List.length_replicate]
      omega
    have hA : '.' ∉ s1.take (s1.length - d) := by
      intro hmem
      have := hs1digits '.' (List.mem_of_mem_take hmem)
      exact absurd this (by decide)
    have hB : ∀ c ∈ s1.drop (s1.length - d), isDigitChar c = true :=
      fun c hc => hs1digits c (List.mem_of_mem_drop hc)
    have hlenB : (s1.drop (s1.length - d)).length = d := by
      rw [List.length_drop]
      omega
    unfold FixedToString
    rw [harg, StringToFixed_around_dot_closed d hd _ _ hA hB hlenB]
    have hAfil : List.filter isDigitChar (s1.take (s1.length - d))
        = s1.take (s1.length - d) := by
      rw [List.filter_eq_self]
      exact fun c hc => hs1digits c (List.mem_of_mem_take hc)
    rw [hAfil, ← valFrom_append, List.take_append_drop]
    rw [← hs1, valFrom_append, valFrom_replicate_zero, zero_mul, natDigits_val]
    exact Int.natAbs_of_nonneg hv

end HFT.SymbolConfig

namespace HFT.SymbolConfig

theorem stfLoop_skips_other (d : Nat) (c : Char) (hc1 : isDigitChar c = false)
    (hc2 : ¬ c = '.') (xs : List Char) :
    ∀ (ys : List Char) (r : Int) (fd : Bool) (dc : Nat),
      stfLoop d (xs ++ c :: ys) r fd dc = stfLoop d (xs ++ ys) r fd dc := by
  induction xs with
  | nil =>
    intro ys r fd dc
    simp only [List.nil_append, stfLoop, if_neg hc2, hc1, Bool.false_eq_true, if_false]
  | cons x xs2 ih =>
    intro ys r fd dc
    simp only [List.cons_append, stfLoop, List.append_eq]
    by_cases hx : x = '.'
    · rw [if_pos hx, if_pos hx]
      exact ih ys r true dc
    · rw [if_neg hx, if_neg hx]
      by_cases hxd : isDigitChar x
      · rw [if_pos hxd, if_pos hxd]
        cases fd
        · simp only [Bool.false_eq_true, if_false]
          exact ih ys _ false dc
        · simp only [if_true]
          by_cases hb : dc + 1 ≥ d
          · rw [if_pos hb, if_pos hb]
          · rw [if_neg hb, if_neg hb]
            exact ih ys _ true (dc + 1)
      · rw [if_neg hxd, if_neg hxd]
        exact ih ys r fd dc

theorem stfLoop_fst_nonneg (d : Nat) (cs : List Char) :
    ∀ (r : Int) (fd : Bool) (dc : Nat), 0 ≤ r → 0 ≤ (stfLoop d cs r fd dc).1 := by
  induction cs with
  | nil =>
    intro r fd dc hr
    exact hr
  | cons c cs2 ih =>
    intro r fd dc hr
    have hdv : 0 ≤ digitVal c := by simp [digitVal]
    have hr2 : 0 ≤ r * 10 + digitVal c := by omega
    simp only [stfLoop]
    by_cases hx : c = '.'
    · rw [if_pos hx]
      exact ih r true dc hr
    · rw [if_neg hx]
      by_cases hxd : isDigitChar c
      · rw [if_pos hxd]
        cases fd
        · simp only [Bool.false_eq_true, if_false]
          exact ih _ false dc hr2
        · simp only [if_true]
          by_cases hb : dc + 1 ≥ d
          · rw [if_pos hb]
            exact hr2
          · rw [if_neg hb]
            exact ih _ true (dc + 1) hr2
      · rw [if_neg hxd]
        exact ih r fd dc hr

end HFT.SymbolConfig

namespace HFT

open SymbolConfig

/-- C9: the decimal conversions of SymbolConfig round-trip: for every
nonnegative fixed-point value v and every decimal count d of at least 1,
StringToFixed (FixedToString v d) d = v; StringToFixed skips every
character that is neither a digit nor the decimal point (hence a leading
minus sign is dropped); every parse result is nonnegative; and all
fractional digits beyond the d-th are truncated, never rounded (any
suffix after the d-th fractional digit leaves the result unchanged). -/
theorem C9_fixed_point_string_conversions :
    (∀ (v : Int) (d : Nat), 0 ≤ v → 1 ≤ d →
      StringToFixed (FixedToString v d) d = v) ∧
    (∀ (xs ys : List Char) (c : Char) (d : Nat),
      isDigitChar c = false → ¬ c = '.' →
      StringToFixed (String.mk (xs ++ c :: ys)) d
        = StringToFixed (String.mk (xs ++ ys)) d) ∧
    (∀ (s : String) (d : Nat), 0 ≤ StringToFixed s d) ∧
    (∀ (A B rest : List Char) (d : Nat), 1 ≤ d → '.' ∉ A →
      (∀ c ∈ B, isDigitChar c = true) → B.length = d →
      StringToFixed (String.mk (A ++ '.' :: (B ++ rest))) d
        = StringToFixed (String.mk (A ++ '.' :: B)) d) := by
  refine ⟨StringToFixed_FixedToString, ?_, ?_, ?_⟩
  · intro xs ys c d hc1 hc2
    unfold StringToFixed
    rw [show (String.mk (xs ++ c :: ys)).data = xs ++ c :: ys from rfl,
      show (String.mk (xs ++ ys)).data = xs ++ ys from rfl,
      stfLoop_skips_other d c hc1 hc2 xs ys 0 false 0]
  · intro s d
    unfold StringToFixed
    have h1 : 0 ≤ (stfLoop d s.data 0 false 0).1 :=
      stfLoop_fst_nonneg d s.data 0 false 0 (le_refl 0)
    have h2 : (0 : Int) ≤ 10 ^ (d - (stfLoop d s.data 0 false 0).2) :=
      pow_nonneg (by norm_num) _
    exact mul_nonneg h1 h2
  · intro A B rest d hd hA hB hlen
    rw [StringToFixed_around_dot d hd A B rest hA hB hlen,
      StringToFixed_around_dot_closed d hd A B hA hB hlen]

/-- Witness for C9: round-trip at 30000.50 with 2 decimals, the leading
minus sign dropped on "-12.34", nonnegativity on "-12.34", and
truncation of "1.239" against "1.23". -/
theorem C9_fixed_point_string_conversions_witness :
    StringToFixed (FixedToString 3000050 2) 2 = 3000050 ∧
    StringToFixed (String.mk ([] ++ '-' :: "12.34".data)) 2
      = StringToFixed (String.mk ([] ++ "12.34".data)) 2 ∧
    (0 : Int) ≤ StringToFixed "-12.34" 2 ∧
    StringToFixed (String.mk (['1'] ++ '.' :: (['2', '3'] ++ ['9']))) 2
      = StringToFixed (String.mk (['1'] ++ '.' :: ['2', '3'])) 2 :=
  ⟨C9_fixed_point_string_conversions.1 3000050 2 (by decide) (by decide),
   C9_fixed_point_string_conversions.2.1 [] "12.34".data '-' 2 (by decide) (by decide),
   C9_fixed_point_string_conversions.2.2.1 "-12.34" 2,
   C9_fixed_point_string_conversions.2.2.2 ['1'] ['2', '3'] ['9'] 2 (by decide)
     (by decide) (by decide) (by decide)⟩

end HFT
